import Mathlib

/-!
# Lab 5 trie (`main.cpp`): embedding and verification

The C++ program keeps a prefix tree of `TrieNode`s, each holding an
`unordered_map<char, TrieNode*> children` and a flag `isEndOfWord`, and a
class `Trie` that owns the root and offers `insert`, `search`, `startsWith`
and `findWordsWithPrefix`.

Embedding conventions.

* A `std::string` is a `List Char`; the program only ever compares symbols for
  equality, so a `char` code unit is a `Char`.
* The `unordered_map` of a node is the list of its entries, read in the order
  the range-for of `findAllWords` visits them.  The order in which the real map
  iterates is unspecified; the verified statements are about membership, counts
  and lengths, never about the position that an entry takes in a map when
  `insert` adds it.
  A node pointer stored in the map is identified with the node it owns (the
  program only ever stores `new TrieNode()`), so there is no null child.
* The methods are not `const`: each one is a state transformer that returns the
  tree it leaves behind together with its result.  A loop `current =
  current->children[ch]` is a recursion on the remaining symbols that writes
  the child it descended into back under its key.
* `children[ch]` used as a value finds an entry or not.  Finding none is the
  fault of the embedding (in C++ the map would gain a null entry that the next
  `current->` dereferences): the methods return `Option`, `none` being that
  fault.
* Console output is not modelled.
* `readWordsFromFile` receives the file as the sequence of lines that `getline`
  delivers; `string::npos` is `none`, positions are natural numbers.
-/

namespace Lab5

/-- A trie vertex (`class TrieNode`): the entries of `children` and the flag
`isEndOfWord`. -/
inductive TrieNode where
  | mk (children : List (Char × TrieNode)) (isEndOfWord : Bool)

namespace TrieNode

/-- Field `children`. -/
def children : TrieNode → List (Char × TrieNode)
  | mk cs _ => cs

/-- Field `isEndOfWord`. -/
def isEndOfWord : TrieNode → Bool
  | mk _ e => e

/-- Constructor `TrieNode()`: no children, `isEndOfWord(false)`. -/
def new : TrieNode := mk [] false

end TrieNode

/-- Call `children.count(ch)`: the number of entries stored under `ch`. -/
def count (children : List (Char × TrieNode)) (ch : Char) : Nat :=
  children.countP (fun e => e.1 == ch)

/-- Expression `children[ch]` read as a value: the child stored under `ch`,
`none` when the map has no such entry. -/
def subscript : List (Char × TrieNode) → Char → Option TrieNode
  | [], _ => none
  | (k, v) :: rest, ch => if k = ch then some v else subscript rest ch

/-- Statement `children[ch] = v`: the entry of `ch` now holds `v`; an entry is
added when there was none.  Where an `unordered_map` puts a new entry in its
iteration order is unspecified (and a rehash may reorder the entries); the list
puts it last, and no verified statement depends on the order of the entries of
a map that `insert` writes to. -/
def assign : List (Char × TrieNode) → Char → TrieNode → List (Char × TrieNode)
  | [], ch, v => [(ch, v)]
  | (k, w) :: rest, ch, v =>
    if k = ch then (k, v) :: rest else (k, w) :: assign rest ch v

/-- The loop of `Trie::insert` started at `current`, followed by
`current->isEndOfWord = true`; the result is the subtree below `current`
afterwards. -/
def insertLoop : TrieNode → List Char → Option TrieNode
  | .mk cs _, [] => some (.mk cs true)
  | .mk cs e, ch :: rest =>
    let cs1 := if count cs ch = 0 then assign cs ch TrieNode.new else cs
    match subscript cs1 ch with
    | none => none
    | some cur =>
      match insertLoop cur rest with
      | none => none
      | some cur1 => some (.mk (assign cs1 ch cur1) e)

/-- The loop of `Trie::search` started at `current`, followed by the test of
`current->isEndOfWord`: the answer and the subtree afterwards. -/
def searchLoop : TrieNode → List Char → Option (Bool × TrieNode)
  | cur, [] => some (cur.isEndOfWord, cur)
  | .mk cs e, ch :: rest =>
    if count cs ch = 0 then some (false, .mk cs e)
    else
      match subscript cs ch with
      | none => none
      | some nxt =>
        match searchLoop nxt rest with
        | none => none
        | some (b, nxt1) => some (b, .mk (assign cs ch nxt1) e)

/-- The loop of `Trie::startsWith` started at `current`, followed by
`return true`. -/
def startsWithLoop : TrieNode → List Char → Option (Bool × TrieNode)
  | cur, [] => some (true, cur)
  | .mk cs e, ch :: rest =>
    if count cs ch = 0 then some (false, .mk cs e)
    else
      match subscript cs ch with
      | none => none
      | some nxt =>
        match startsWithLoop nxt rest with
        | none => none
        | some (b, nxt1) => some (b, .mk (assign cs ch nxt1) e)

mutual
/-- Helper `Trie::findAllWords(node, currentPrefix, words)`: the vector `words`
afterwards. -/
def findAllWords : TrieNode → List Char → List (List Char) → List (List Char)
  | .mk cs e, currentPrefix, words =>
    findAllWordsChildren cs currentPrefix (if e then words ++ [currentPrefix] else words)
/-- The range-for of `findAllWords` over the entries of `node->children` that
are still to be visited. -/
def findAllWordsChildren :
    List (Char × TrieNode) → List Char → List (List Char) → List (List Char)
  | [], _, words => words
  | (ch, child) :: rest, currentPrefix, words =>
    findAllWordsChildren rest currentPrefix (findAllWords child (currentPrefix ++ [ch]) words)
end

/-- The loop of `Trie::findWordsWithPrefix` started at `current` with the
symbols of the argument still to be consumed, followed by
`findAllWords(current, pfx, words)` on the empty vector `words`; `pfx` is the
whole argument. -/
def findWordsLoop : TrieNode → List Char → List Char → Option (List (List Char) × TrieNode)
  | cur, [], pfx => some (findAllWords cur pfx [], cur)
  | .mk cs e, ch :: rest, pfx =>
    if count cs ch = 0 then some ([], .mk cs e)
    else
      match subscript cs ch with
      | none => none
      | some nxt =>
        match findWordsLoop nxt rest pfx with
        | none => none
        | some (ws, nxt1) => some (ws, .mk (assign cs ch nxt1) e)

/-- A `class Trie`: the owned `root`. -/
structure Trie where
  root : TrieNode

namespace Trie

/-- Constructor `Trie()`: `root = new TrieNode()`. -/
def new : Trie := ⟨TrieNode.new⟩

/-- Method `Trie::insert(word)`. -/
def insert (t : Trie) (word : List Char) : Option Trie :=
  (insertLoop t.root word).map Trie.mk

/-- Method `Trie::search(word)`. -/
def search (t : Trie) (word : List Char) : Option (Bool × Trie) :=
  (searchLoop t.root word).map (fun r => (r.1, Trie.mk r.2))

/-- Method `Trie::startsWith(prefix)`. -/
def startsWith (t : Trie) (pfx : List Char) : Option (Bool × Trie) :=
  (startsWithLoop t.root pfx).map (fun r => (r.1, Trie.mk r.2))

/-- Method `Trie::findWordsWithPrefix(prefix)`. -/
def findWordsWithPrefix (t : Trie) (pfx : List Char) : Option (List (List Char) × Trie) :=
  (findWordsLoop t.root pfx pfx).map (fun r => (r.1, Trie.mk r.2))

/-- The loop `for (const string& word : dataSet) trie.insert(word);` of `main`. -/
def insertAll : Trie → List (List Char) → Option Trie
  | t, [] => some t
  | t, word :: rest =>
    match t.insert word with
    | none => none
    | some t1 => insertAll t1 rest

end Trie

/-! ## Reading the dataset (`readWordsFromFile`) -/

/-- The characters of the literal `" \t\r\n"` handed to `find_first_not_of` and
`find_last_not_of`. -/
def whitespace : List Char := [' ', '\t', '\r', '\n']

/-- Call `line.find_first_not_of(chars)`: the position of the first symbol that
is not in `chars`; `none` stands for `string::npos`. -/
def find_first_not_of : List Char → List Char → Option Nat
  | [], _ => none
  | c :: rest, chars =>
    if c ∈ chars then (find_first_not_of rest chars).map (· + 1) else some 0

/-- Call `line.find_last_not_of(chars)`: the position of the last symbol that is
not in `chars`; `none` stands for `string::npos`. -/
def find_last_not_of : List Char → List Char → Option Nat
  | [], _ => none
  | c :: rest, chars =>
    match find_last_not_of rest chars with
    | some i => some (i + 1)
    | none => if c ∈ chars then none else some 0

/-- Call `s.substr(pos, len)`: at most `len` symbols from position `pos` on;
`none` is the `out_of_range` exception thrown when `pos > s.size()`. -/
def substr (s : List Char) (pos len : Nat) : Option (List Char) :=
  if pos ≤ s.length then some ((s.drop pos).take len) else none

/-- The `while (getline(file, line))` loop of `readWordsFromFile` over the lines
still to be read, with the vector `words` so far; `none` when `substr` throws.
The positions are `size_t` values; `end - start` is taken where
`start ≤ end`, so the unsigned subtraction does not wrap. -/
def readWordsLoop : List (List Char) → List (List Char) → Option (List (List Char))
  | [], words => some words
  | line :: rest, words =>
    match find_first_not_of line whitespace, find_last_not_of line whitespace with
    | some start, some stop =>
      match substr line start (stop - start + 1) with
      | none => none
      | some trimmedLine =>
        if trimmedLine.headD (Char.ofNat 0) = '#' then readWordsLoop rest words
        else readWordsLoop rest (words ++ [trimmedLine])
    | _, _ => readWordsLoop rest words

/-- Function `readWordsFromFile(filename)`.  The file is given by what the
stream delivers: `none` when it cannot be opened, else the lines that `getline`
returns in turn. -/
def readWordsFromFile (file : Option (List (List Char))) : Option (List (List Char)) :=
  match file with
  | none => some []
  | some lines => readWordsLoop lines []

/-! ## Auxiliary functions of the proofs

The functions below are not part of the program: they are the vocabulary in
which the lemmas describe what the embedded methods compute. -/

/-- The node reached from `t` along the symbols of `p`, when every symbol has
a child. -/
def walk : TrieNode → List Char → Option TrieNode
  | t, [] => some t
  | .mk cs _, ch :: rest =>
    match subscript cs ch with
    | none => none
    | some c => walk c rest

/-- Whether the path `w` ends in a node flagged `isEndOfWord`. -/
def stored (t : TrieNode) (w : List Char) : Bool :=
  match walk t w with
  | some n => n.isEndOfWord
  | none => false

/-- The tree `insertLoop` leaves behind, as a total function. -/
def ins : TrieNode → List Char → TrieNode
  | .mk cs _, [] => .mk cs true
  | .mk cs e, ch :: rest =>
    .mk (assign cs ch (ins ((subscript cs ch).getD TrieNode.new) rest)) e

/-- Whether every symbol of `p` has a child along the path from `t`. -/
def reach (t : TrieNode) (p : List Char) : Bool := (walk t p).isSome

mutual
/-- Well-formed tree: in every node the keys of `children` are pairwise
distinct, as in an `unordered_map`. -/
def wellFormed : TrieNode → Bool
  | .mk cs _ => wellFormedChildren cs
/-- The entries `cs` have distinct keys and well-formed subtrees. -/
def wellFormedChildren : List (Char × TrieNode) → Bool
  | [] => true
  | (k, c) :: rest => decide (count rest k = 0) && wellFormed c && wellFormedChildren rest
end

/-- What `findWordsLoop` collects for the argument `p`. -/
def collected (t : TrieNode) (p : List Char) : List (List Char) :=
  match walk t p with
  | some n => findAllWords n p []
  | none => []

/-- The number of iterations of `for (char ch : word)` that `insertLoop` begins. -/
def insertLoopSteps : TrieNode → List Char → Nat
  | _, [] => 0
  | .mk cs _, ch :: rest =>
    let cs1 := if count cs ch = 0 then assign cs ch TrieNode.new else cs
    match subscript cs1 ch with
    | none => 1
    | some cur => 1 + insertLoopSteps cur rest

/-- The number of iterations that the traversal loop shared by `searchLoop`,
`startsWithLoop` and `findWordsLoop` begins before it is left. -/
def traversalSteps : TrieNode → List Char → Nat
  | _, [] => 0
  | .mk cs _, ch :: rest =>
    if count cs ch = 0 then 1
    else
      match subscript cs ch with
      | none => 1
      | some nxt => 1 + traversalSteps nxt rest

mutual
/-- The number of nodes of the subtree of a node, the node itself included;
`findAllWords` is called once on each of them. -/
def nodeCount : TrieNode → Nat
  | .mk cs _ => 1 + nodeCountChildren cs
/-- The number of nodes in the subtrees of the entries `cs`. -/
def nodeCountChildren : List (Char × TrieNode) → Nat
  | [] => 0
  | (_, child) :: rest => nodeCount child + nodeCountChildren rest
end

mutual
/-- The number of nodes flagged `isEndOfWord` in the subtree of a node, the
node itself included. -/
def terminalCount : TrieNode → Nat
  | .mk cs e => (if e then 1 else 0) + terminalCountChildren cs
/-- The number of flagged nodes in the subtrees of the entries `cs`. -/
def terminalCountChildren : List (Char × TrieNode) → Nat
  | [] => 0
  | (_, child) :: rest => terminalCount child + terminalCountChildren rest
end

/-- The length of the longest prefix of `w` that is a path from `t`. -/
def matchedLength : TrieNode → List Char → Nat
  | _, [] => 0
  | .mk cs _, ch :: rest =>
    match subscript cs ch with
    | none => 0
    | some c => 1 + matchedLength c rest

/-- No dead end: every node other than `t` itself that has no children is
flagged `isEndOfWord`. -/
def NoDeadEnds (t : TrieNode) : Prop :=
  ∀ p n, p ≠ [] → walk t p = some n → n.children = [] → n.isEndOfWord = true

/-- Every node other than `t` itself has a flagged node in its own subtree. -/
def LeadsToWord (t : TrieNode) : Prop :=
  ∀ p n, p ≠ [] → walk t p = some n → ∃ s m, walk n s = some m ∧ m.isEndOfWord = true

/-- Helper `Trie::findAllWords` with the depth of the recursion bounded by
`fuel`: `none` when a call is made with no fuel left. -/
def findAllWordsFuel : Nat → TrieNode → List Char → List (List Char) → Option (List (List Char))
  | 0, _, _, _ => none
  | fuel + 1, node, currentPrefix, words =>
    node.children.foldlM
      (fun acc child => findAllWordsFuel fuel child.2 (currentPrefix ++ [child.1]) acc)
      (if node.isEndOfWord then words ++ [currentPrefix] else words)

/-- The Trie that holds the words "data" and "do". -/
def dataDo : Trie :=
  ⟨.mk [('d', .mk [('a', .mk [('t', .mk [('a', .mk [] true)] false)] false),
                   ('o', .mk [] true)] false)] false⟩

/-! ## The per-line contract of the dataset reader, in the words of the spec -/

/-- Specification side: a character of the set {space, tab, CR, LF}. -/
def specBlank (c : Char) : Bool :=
  c == ' ' || c == '\t' || c == '\r' || c == '\n'

/-- Specification side: the trimmed form of a line, the substring from its first
to its last character that is not blank. -/
def specTrimmed (line : List Char) : List Char :=
  (line.dropWhile specBlank).rdropWhile specBlank

/-- Specification side: the line has a character that is not blank, and the
first such character is not `#`. -/
def specKept (line : List Char) : Bool :=
  match line.find? (fun c => !specBlank c) with
  | some c => c != '#'
  | none => false

/-- Specification side: the words of a sequence of lines, the trimmed forms of
the kept lines in their order. -/
def specWords (lines : List (List Char)) : List (List Char) :=
  (lines.filter specKept).map specTrimmed

/-! ## Lemmas on the children map -/


theorem count_eq_zero_iff (cs : List (Char × TrieNode)) (ch : Char) :
    count cs ch = 0 ↔ subscript cs ch = none := by
  induction cs with
  | nil => simp [count, subscript]
  | cons hd tl ih =>
    obtain ⟨k, v⟩ := hd
    by_cases h : k = ch
    · simp [count, subscript, h]
    · have : count tl ch = 0 ↔ subscript tl ch = none := ih
      simp [count, subscript, h, List.countP_cons] at this ⊢
      exact this

theorem assign_subscript_self (cs : List (Char × TrieNode)) (ch : Char) (c : TrieNode)
    (h : subscript cs ch = some c) : assign cs ch c = cs := by
  induction cs with
  | nil => simp [subscript] at h
  | cons hd tl ih =>
    obtain ⟨k, v⟩ := hd
    by_cases hk : k = ch
    · simp [subscript, hk] at h
      simp [assign, hk, h]
    · simp [subscript, hk] at h
      simp [assign, hk, ih h]

theorem subscript_assign_same (cs : List (Char × TrieNode)) (ch : Char) (v : TrieNode) :
    subscript (assign cs ch v) ch = some v := by
  induction cs with
  | nil => simp [assign, subscript]
  | cons hd tl ih =>
    obtain ⟨k, w⟩ := hd
    by_cases hk : k = ch
    · simp [assign, subscript, hk]
    · simp [assign, subscript, hk, ih]

theorem subscript_assign_other (cs : List (Char × TrieNode)) (ch k : Char) (v : TrieNode)
    (hne : k ≠ ch) : subscript (assign cs ch v) k = subscript cs k := by
  induction cs with
  | nil => simp [assign, subscript, Ne.symm hne]
  | cons hd tl ih =>
    obtain ⟨k1, w⟩ := hd
    by_cases hk : k1 = ch
    · subst hk
      simp [assign, subscript, Ne.symm hne]
    · by_cases hk1 : k1 = k
      · subst hk1
        simp [assign, subscript, hk]
      · simp [assign, subscript, hk, hk1, ih]

theorem assign_assign (cs : List (Char × TrieNode)) (ch : Char) (v w : TrieNode) :
    assign (assign cs ch v) ch w = assign cs ch w := by
  induction cs with
  | nil => simp [assign]
  | cons hd tl ih =>
    obtain ⟨k, u⟩ := hd
    by_cases hk : k = ch
    · simp [assign, hk]
    · simp [assign, hk, ih]

theorem insertLoop_eq (t : TrieNode) (w : List Char) : insertLoop t w = some (ins t w) := by
  induction w generalizing t with
  | nil => cases t; rfl
  | cons ch rest ih =>
    obtain ⟨cs, e⟩ := t
    by_cases h0 : count cs ch = 0
    · have hn : subscript cs ch = none := (count_eq_zero_iff cs ch).1 h0
      simp [insertLoop, ins, h0, hn, subscript_assign_same, ih, assign_assign]
    · have hn : subscript cs ch ≠ none := fun h => h0 ((count_eq_zero_iff cs ch).2 h)
      obtain ⟨c, hc⟩ := Option.ne_none_iff_exists'.1 hn
      simp [insertLoop, ins, h0, hc, ih]

theorem searchLoop_eq (t : TrieNode) (w : List Char) :
    searchLoop t w = some (stored t w, t) := by
  induction w generalizing t with
  | nil => cases t; rfl
  | cons ch rest ih =>
    obtain ⟨cs, e⟩ := t
    by_cases h0 : count cs ch = 0
    · have hn : subscript cs ch = none := (count_eq_zero_iff cs ch).1 h0
      simp [searchLoop, stored, walk, h0, hn]
    · have hn : subscript cs ch ≠ none := fun h => h0 ((count_eq_zero_iff cs ch).2 h)
      obtain ⟨c, hc⟩ := Option.ne_none_iff_exists'.1 hn
      simp [searchLoop, stored, walk, h0, hc, ih, assign_subscript_self]

theorem startsWithLoop_eq (t : TrieNode) (w : List Char) :
    startsWithLoop t w = some ((walk t w).isSome, t) := by
  induction w generalizing t with
  | nil => cases t; rfl
  | cons ch rest ih =>
    obtain ⟨cs, e⟩ := t
    by_cases h0 : count cs ch = 0
    · have hn : subscript cs ch = none := (count_eq_zero_iff cs ch).1 h0
      simp [startsWithLoop, walk, h0, hn]
    · have hn : subscript cs ch ≠ none := fun h => h0 ((count_eq_zero_iff cs ch).2 h)
      obtain ⟨c, hc⟩ := Option.ne_none_iff_exists'.1 hn
      simp [startsWithLoop, walk, h0, hc, ih, assign_subscript_self]

theorem findWordsLoop_eq (t : TrieNode) (w pfx : List Char) :
    findWordsLoop t w pfx =
      some ((match walk t w with
             | some n => findAllWords n pfx []
             | none => []), t) := by
  induction w generalizing t with
  | nil => cases t; rfl
  | cons ch rest ih =>
    obtain ⟨cs, e⟩ := t
    by_cases h0 : count cs ch = 0
    · have hn : subscript cs ch = none := (count_eq_zero_iff cs ch).1 h0
      simp [findWordsLoop, walk, h0, hn]
    · have hn : subscript cs ch ≠ none := fun h => h0 ((count_eq_zero_iff cs ch).2 h)
      obtain ⟨c, hc⟩ := Option.ne_none_iff_exists'.1 hn
      simp [findWordsLoop, walk, h0, hc, ih, assign_subscript_self]


/-! ## What `insert` does to the answers of the queries -/

theorem stored_nil (cs : List (Char × TrieNode)) (e : Bool) : stored (.mk cs e) [] = e := rfl

theorem stored_cons (cs : List (Char × TrieNode)) (e : Bool) (c : Char) (p : List Char) :
    stored (.mk cs e) (c :: p) =
      (match subscript cs c with
       | some n => stored n p
       | none => false) := by
  unfold stored
  simp only [walk]
  cases subscript cs c <;> rfl

theorem reach_nil (t : TrieNode) : reach t [] = true := by
  cases t; rfl

theorem reach_cons (cs : List (Char × TrieNode)) (e : Bool) (c : Char) (p : List Char) :
    reach (.mk cs e) (c :: p) =
      (match subscript cs c with
       | some n => reach n p
       | none => false) := by
  unfold reach
  simp only [walk]
  cases subscript cs c <;> rfl

theorem stored_new (p : List Char) : stored TrieNode.new p = false := by
  cases p with
  | nil => rfl
  | cons c p => simp [TrieNode.new, stored_cons, subscript]

theorem reach_new (p : List Char) : reach TrieNode.new p = true ↔ p = [] := by
  cases p with
  | nil => simp [reach_nil]
  | cons c p => simp [TrieNode.new, reach_cons, subscript]

theorem stored_ins (t : TrieNode) (w p : List Char) :
    stored (ins t w) p = true ↔ p = w ∨ stored t p = true := by
  induction w generalizing t p with
  | nil =>
    obtain ⟨cs, e⟩ := t
    cases p with
    | nil => simp [ins, stored_nil]
    | cons c p => simp [ins, stored_cons]
  | cons ch rest ih =>
    obtain ⟨cs, e⟩ := t
    cases p with
    | nil => simp [ins, stored_nil]
    | cons c p =>
      by_cases hc : c = ch
      · subst hc
        simp only [ins, stored_cons, subscript_assign_same, ih]
        cases hs : subscript cs c with
        | none => simp [stored_new]
        | some n => simp
      · simp [ins, stored_cons, subscript_assign_other _ _ _ _ hc, hc]

theorem reach_ins (t : TrieNode) (w p : List Char) :
    reach (ins t w) p = true ↔ p <+: w ∨ reach t p = true := by
  induction w generalizing t p with
  | nil =>
    obtain ⟨cs, e⟩ := t
    cases p with
    | nil => simp [reach_nil]
    | cons c p => simp [ins, reach_cons]
  | cons ch rest ih =>
    obtain ⟨cs, e⟩ := t
    cases p with
    | nil => simp [reach_nil]
    | cons c p =>
      by_cases hc : c = ch
      · subst hc
        simp only [ins, reach_cons, subscript_assign_same, ih]
        cases hs : subscript cs c with
        | none =>
          simp only [Option.getD_none, reach_new, List.cons_prefix_cons, true_and]
          constructor
          · rintro (h | h)
            · exact Or.inl h
            · exact Or.inl (h ▸ List.nil_prefix)
          · rintro (h | h)
            · exact Or.inl h
            · simp at h
        | some n => simp [List.cons_prefix_cons]
      · simp [ins, reach_cons, subscript_assign_other _ _ _ _ hc, hc, List.cons_prefix_cons]

theorem ins_ins (t : TrieNode) (w : List Char) : ins (ins t w) w = ins t w := by
  induction w generalizing t with
  | nil => cases t; rfl
  | cons ch rest ih =>
    obtain ⟨cs, e⟩ := t
    simp [ins, subscript_assign_same, assign_assign, ih]


/-! ## Unique keys, and what `findAllWords` collects -/

theorem wellFormed_new : wellFormed TrieNode.new = true := by
  simp [TrieNode.new, wellFormed, wellFormedChildren]

theorem count_assign_other (cs : List (Char × TrieNode)) (ch k : Char) (v : TrieNode)
    (hne : k ≠ ch) : count (assign cs ch v) k = 0 ↔ count cs k = 0 := by
  rw [count_eq_zero_iff, count_eq_zero_iff, subscript_assign_other _ _ _ _ hne]

theorem wellFormed_subscript (cs : List (Char × TrieNode)) (ch : Char) (c : TrieNode)
    (hwf : wellFormedChildren cs = true) (h : subscript cs ch = some c) :
    wellFormed c = true := by
  induction cs with
  | nil => simp [subscript] at h
  | cons hd tl ih =>
    obtain ⟨k, v⟩ := hd
    simp only [wellFormedChildren, Bool.and_eq_true, decide_eq_true_eq] at hwf
    by_cases hk : k = ch
    · simp [subscript, hk] at h
      exact h ▸ hwf.1.2
    · simp [subscript, hk] at h
      exact ih hwf.2 h

theorem wellFormedChildren_assign (cs : List (Char × TrieNode)) (ch : Char) (v : TrieNode)
    (hwf : wellFormedChildren cs = true) (hv : wellFormed v = true) :
    wellFormedChildren (assign cs ch v) = true := by
  induction cs with
  | nil => simp [assign, wellFormedChildren, hv, count]
  | cons hd tl ih =>
    obtain ⟨k, w⟩ := hd
    simp only [wellFormedChildren, Bool.and_eq_true, decide_eq_true_eq] at hwf
    by_cases hk : k = ch
    · simp [assign, hk, wellFormedChildren, hv, hwf.2]
      exact hk ▸ hwf.1.1
    · simp only [assign, hk, if_false, wellFormedChildren, Bool.and_eq_true, decide_eq_true_eq]
      exact ⟨⟨(count_assign_other tl ch k v hk).2 hwf.1.1, hwf.1.2⟩, ih hwf.2⟩

theorem wellFormed_ins (t : TrieNode) (w : List Char) (hwf : wellFormed t = true) :
    wellFormed (ins t w) = true := by
  induction w generalizing t with
  | nil =>
    obtain ⟨cs, e⟩ := t
    simpa [ins, wellFormed] using hwf
  | cons ch rest ih =>
    obtain ⟨cs, e⟩ := t
    simp only [wellFormed] at hwf
    simp only [ins, wellFormed]
    apply wellFormedChildren_assign _ _ _ hwf
    apply ih
    cases hs : subscript cs ch with
    | none => exact wellFormed_new
    | some c => exact wellFormed_subscript cs ch c hwf hs

mutual
theorem findAllWords_acc : ∀ (t : TrieNode) (pre : List Char) (acc : List (List Char)),
    findAllWords t pre acc = acc ++ findAllWords t pre []
  | .mk cs e, pre, acc => by
    simp only [findAllWords]
    rw [findAllWordsChildren_acc cs pre (if e = true then acc ++ [pre] else acc),
      findAllWordsChildren_acc cs pre (if e = true then [] ++ [pre] else [])]
    cases e <;> simp
theorem findAllWordsChildren_acc :
    ∀ (cs : List (Char × TrieNode)) (pre : List Char) (acc : List (List Char)),
    findAllWordsChildren cs pre acc = acc ++ findAllWordsChildren cs pre []
  | [], pre, acc => by simp [findAllWordsChildren]
  | (k, c) :: rest, pre, acc => by
    simp only [findAllWordsChildren]
    rw [findAllWordsChildren_acc rest pre (findAllWords c (pre ++ [k]) acc),
      findAllWordsChildren_acc rest pre (findAllWords c (pre ++ [k]) []),
      findAllWords_acc c (pre ++ [k]) acc]
    simp
end


theorem stored_cons_flag (cs : List (Char × TrieNode)) (e e1 : Bool) (c : Char) (p : List Char) :
    stored (.mk cs e) (c :: p) = stored (.mk cs e1) (c :: p) := by
  rw [stored_cons, stored_cons]

theorem stored_cons_head (k : Char) (c : TrieNode) (rest : List (Char × TrieNode)) (e : Bool)
    (s : List Char) : stored (.mk ((k, c) :: rest) e) (k :: s) = stored c s := by
  simp [stored_cons, subscript]

theorem stored_cons_tail (k k1 : Char) (c : TrieNode) (rest : List (Char × TrieNode)) (e : Bool)
    (s : List Char) (hne : k ≠ k1) :
    stored (.mk ((k, c) :: rest) e) (k1 :: s) = stored (.mk rest e) (k1 :: s) := by
  simp [stored_cons, subscript, hne]

theorem stored_absent (cs : List (Char × TrieNode)) (e : Bool) (k : Char) (s : List Char)
    (h : count cs k = 0) : stored (.mk cs e) (k :: s) = false := by
  simp [stored_cons, (count_eq_zero_iff cs k).1 h]

mutual
theorem mem_findAllWords : ∀ (t : TrieNode) (pre x : List Char), wellFormed t = true →
    (x ∈ findAllWords t pre [] ↔ ∃ s, x = pre ++ s ∧ stored t s = true)
  | .mk cs e, pre, x, hwf => by
    simp only [wellFormed] at hwf
    simp only [findAllWords]
    rw [findAllWordsChildren_acc, List.mem_append, mem_findAllWordsChildren cs pre x hwf]
    constructor
    · rintro (h | ⟨k, s, rfl, h⟩)
      · cases e with
        | false => simp at h
        | true =>
          simp at h
          exact ⟨[], by simp [h], rfl⟩
      · exact ⟨k :: s, rfl, by rw [stored_cons_flag cs e false]; exact h⟩
    · rintro ⟨s, rfl, h⟩
      cases s with
      | nil =>
        left
        rw [stored_nil] at h
        simp [h]
      | cons k s =>
        right
        exact ⟨k, s, rfl, by rw [stored_cons_flag cs false e]; exact h⟩
theorem mem_findAllWordsChildren :
    ∀ (cs : List (Char × TrieNode)) (pre x : List Char), wellFormedChildren cs = true →
    (x ∈ findAllWordsChildren cs pre [] ↔
      ∃ k s, x = pre ++ k :: s ∧ stored (.mk cs false) (k :: s) = true)
  | [], pre, x, _ => by simp [findAllWordsChildren, stored_cons, subscript]
  | (k0, c0) :: rest, pre, x, hwf => by
    simp only [wellFormedChildren, Bool.and_eq_true, decide_eq_true_eq] at hwf
    simp only [findAllWordsChildren]
    rw [findAllWordsChildren_acc, List.mem_append, mem_findAllWords c0 (pre ++ [k0]) x hwf.1.2,
      mem_findAllWordsChildren rest pre x hwf.2]
    constructor
    · rintro (⟨s, rfl, h⟩ | ⟨k, s, rfl, h⟩)
      · exact ⟨k0, s, by simp, by rw [stored_cons_head]; exact h⟩
      · have hne : k0 ≠ k := by
          rintro rfl
          rw [stored_absent rest false k0 s hwf.1.1] at h
          exact Bool.false_ne_true h
        exact ⟨k, s, rfl, by rw [stored_cons_tail k0 k c0 rest false s hne]; exact h⟩
    · rintro ⟨k, s, rfl, h⟩
      by_cases hk : k0 = k
      · subst hk
        rw [stored_cons_head] at h
        exact Or.inl ⟨s, by simp, h⟩
      · rw [stored_cons_tail k0 k c0 rest false s hk] at h
        exact Or.inr ⟨k, s, rfl, h⟩
end

mutual
theorem nodup_findAllWords : ∀ (t : TrieNode) (pre : List Char), wellFormed t = true →
    (findAllWords t pre []).Nodup
  | .mk cs e, pre, hwf => by
    simp only [wellFormed] at hwf
    simp only [findAllWords]
    rw [findAllWordsChildren_acc, List.nodup_append]
    refine ⟨by cases e <;> simp, nodup_findAllWordsChildren cs pre hwf, ?_⟩
    intro x hx hy
    rw [mem_findAllWordsChildren cs pre x hwf] at hy
    obtain ⟨k, s, rfl, _⟩ := hy
    cases e with
    | false => simp at hx
    | true => simp at hx
theorem nodup_findAllWordsChildren :
    ∀ (cs : List (Char × TrieNode)) (pre : List Char), wellFormedChildren cs = true →
    (findAllWordsChildren cs pre []).Nodup
  | [], pre, _ => by simp [findAllWordsChildren]
  | (k0, c0) :: rest, pre, hwf => by
    simp only [wellFormedChildren, Bool.and_eq_true, decide_eq_true_eq] at hwf
    simp only [findAllWordsChildren]
    rw [findAllWordsChildren_acc, List.nodup_append]
    refine ⟨nodup_findAllWords c0 (pre ++ [k0]) hwf.1.2,
      nodup_findAllWordsChildren rest pre hwf.2, ?_⟩
    intro x hx hy
    rw [mem_findAllWords c0 (pre ++ [k0]) x hwf.1.2] at hx
    rw [mem_findAllWordsChildren rest pre x hwf.2] at hy
    obtain ⟨s, rfl, _⟩ := hx
    obtain ⟨k, s1, heq, h⟩ := hy
    simp only [List.append_assoc, List.singleton_append, List.append_cancel_left_eq,
      List.cons.injEq] at heq
    rw [← heq.1, stored_absent rest false k0 s1 hwf.1.1] at h
    exact Bool.false_ne_true h
end


/-! ## Tries built by a sequence of inserts -/

theorem walk_append (t : TrieNode) (p s : List Char) :
    walk t (p ++ s) = (walk t p).bind (fun n => walk n s) := by
  induction p generalizing t with
  | nil => cases t; rfl
  | cons c p ih =>
    obtain ⟨cs, e⟩ := t
    simp only [List.cons_append, walk]
    cases subscript cs c with
    | none => rfl
    | some n => exact ih n

theorem wellFormed_walk (t n : TrieNode) (p : List Char) (hwf : wellFormed t = true)
    (h : walk t p = some n) : wellFormed n = true := by
  induction p generalizing t with
  | nil =>
    cases t
    simp only [walk, Option.some.injEq] at h
    exact h ▸ hwf
  | cons c p ih =>
    obtain ⟨cs, e⟩ := t
    simp only [wellFormed] at hwf
    simp only [walk] at h
    cases hs : subscript cs c with
    | none => simp [hs] at h
    | some m =>
      simp only [hs] at h
      exact ih m (wellFormed_subscript cs c m hwf hs) h

theorem mem_collected (t : TrieNode) (p x : List Char) (hwf : wellFormed t = true) :
    x ∈ collected t p ↔ p <+: x ∧ stored t x = true := by
  unfold collected
  cases hw : walk t p with
  | none =>
    simp only [List.not_mem_nil, false_iff, not_and]
    rintro ⟨s, rfl⟩
    simp [stored, walk_append, hw]
  | some n =>
    simp only
    rw [mem_findAllWords n p x (wellFormed_walk t n p hwf hw)]
    constructor
    · rintro ⟨s, rfl, h⟩
      refine ⟨⟨s, rfl⟩, ?_⟩
      simpa [stored, walk_append, hw] using h
    · rintro ⟨⟨s, rfl⟩, h⟩
      refine ⟨s, rfl, ?_⟩
      simpa [stored, walk_append, hw] using h

theorem nodup_collected (t : TrieNode) (p : List Char) (hwf : wellFormed t = true) :
    (collected t p).Nodup := by
  unfold collected
  cases hw : walk t p with
  | none => simp
  | some n => exact nodup_findAllWords n p (wellFormed_walk t n p hwf hw)

theorem collected_of_not_reach (t : TrieNode) (p : List Char) (h : reach t p = false) :
    collected t p = [] := by
  unfold collected
  unfold reach at h
  cases hw : walk t p with
  | none => rfl
  | some n => simp [hw] at h

theorem stored_foldl (L : List (List Char)) (t : TrieNode) (p : List Char) :
    stored (L.foldl ins t) p = true ↔ p ∈ L ∨ stored t p = true := by
  induction L generalizing t with
  | nil => simp
  | cons w L ih =>
    simp only [List.foldl_cons, ih, stored_ins, List.mem_cons]
    tauto

theorem reach_foldl (L : List (List Char)) (t : TrieNode) (p : List Char) :
    reach (L.foldl ins t) p = true ↔ (∃ w ∈ L, p <+: w) ∨ reach t p = true := by
  induction L generalizing t with
  | nil => simp
  | cons w L ih =>
    simp only [List.foldl_cons, ih, reach_ins, List.mem_cons, exists_eq_or_imp]
    constructor
    · rintro (h | h | h)
      · exact Or.inl (Or.inr h)
      · exact Or.inl (Or.inl h)
      · exact Or.inr h
    · rintro ((h | h) | h)
      · exact Or.inr (Or.inl h)
      · exact Or.inl h
      · exact Or.inr (Or.inr h)

theorem wellFormed_foldl (L : List (List Char)) (t : TrieNode) (hwf : wellFormed t = true) :
    wellFormed (L.foldl ins t) = true := by
  induction L generalizing t with
  | nil => exact hwf
  | cons w L ih => exact ih _ (wellFormed_ins t w hwf)

namespace Trie

theorem insert_eq (t : Trie) (w : List Char) : t.insert w = some ⟨ins t.root w⟩ := by
  simp [Trie.insert, insertLoop_eq]

theorem search_eq (t : Trie) (w : List Char) : t.search w = some (stored t.root w, t) := by
  simp [Trie.search, searchLoop_eq]

theorem startsWith_eq (t : Trie) (p : List Char) :
    t.startsWith p = some (reach t.root p, t) := by
  simp [Trie.startsWith, startsWithLoop_eq, reach]

theorem findWordsWithPrefix_eq (t : Trie) (p : List Char) :
    t.findWordsWithPrefix p = some (collected t.root p, t) := by
  simp [Trie.findWordsWithPrefix, findWordsLoop_eq, collected]

theorem insertAll_eq (t : Trie) (L : List (List Char)) :
    Trie.insertAll t L = some ⟨L.foldl ins t.root⟩ := by
  induction L generalizing t with
  | nil => rfl
  | cons w L ih => simp [Trie.insertAll, insert_eq, ih]

end Trie


/-! ## Claims C1 to C10 -/

theorem stored_foldl_new (L : List (List Char)) (p : List Char) :
    stored (L.foldl ins TrieNode.new) p = decide (p ∈ L) := by
  rw [Bool.eq_iff_iff, stored_foldl, stored_new]
  simp

theorem foldl_ins_replicate (t : TrieNode) (W : List Char) (N : Nat) :
    (List.replicate (N + 1) W).foldl ins t = ins t W := by
  induction N generalizing t with
  | zero => rfl
  | succ n ih => rw [List.replicate_succ, List.foldl_cons, ih, ins_ins]

/-- C1: for every list of words inserted into the empty Trie and every word `W`
of the list, `search(W)` answers true on the Trie built; and on any Trie,
`search(W)` answers true right after `insert(W)` and still does after any
further sequence of inserts. -/
theorem search_true_of_inserted (L : List (List Char)) (W : List Char) (hW : W ∈ L) :
    (∃ t, Trie.insertAll Trie.new L = some t ∧ (t.search W).map Prod.fst = some true) ∧
    (∀ (t0 : Trie) (more : List (List Char)), ∃ t1 t2,
        t0.insert W = some t1 ∧ (t1.search W).map Prod.fst = some true ∧
        Trie.insertAll t1 more = some t2 ∧ (t2.search W).map Prod.fst = some true) := by
  constructor
  · refine ⟨_, Trie.insertAll_eq _ _, ?_⟩
    simp [Trie.search_eq, Trie.new, stored_foldl_new, hW]
  · intro t0 more
    refine ⟨_, _, Trie.insert_eq _ _, ?_, Trie.insertAll_eq _ _, ?_⟩
    · simp only [Trie.search_eq, Option.map_some', Option.some.injEq]
      exact (stored_ins _ _ _).2 (Or.inl rfl)
    · simp only [Trie.search_eq, Option.map_some', Option.some.injEq]
      exact (stored_foldl _ _ _).2 (Or.inr ((stored_ins _ _ _).2 (Or.inl rfl)))

/-- Witness of C1: "do" is among the inserted words "data", "do" and is found. -/
theorem search_true_of_inserted_witness :
    "do".toList ∈ ["data".toList, "do".toList] ∧
    ∃ t, Trie.insertAll Trie.new ["data".toList, "do".toList] = some t ∧
      (t.search "do".toList).map Prod.fst = some true :=
  ⟨by decide, (search_true_of_inserted ["data".toList, "do".toList] "do".toList (by decide)).1⟩

/-- C2: for every list of words inserted into the empty Trie and every string
`W` that is not, symbol for symbol, one of them, `search(W)` answers false; a
proper prefix of an inserted word is such a `W`. -/
theorem search_false_of_not_inserted (L : List (List Char)) (W : List Char) (hW : W ∉ L) :
    ∃ t, Trie.insertAll Trie.new L = some t ∧ (t.search W).map Prod.fst = some false := by
  refine ⟨_, Trie.insertAll_eq _ _, ?_⟩
  simp [Trie.search_eq, Trie.new, stored_foldl_new, hW]

/-- Witness of C2: "Java", a proper prefix of the inserted "JavaScript", is not
found. -/
theorem search_false_of_not_inserted_witness :
    "Java".toList ∉ ["e-mail".toList, "24hours".toList, "JavaScript".toList] ∧
    ∃ t, Trie.insertAll Trie.new ["e-mail".toList, "24hours".toList, "JavaScript".toList]
        = some t ∧
      (t.search "Java".toList).map Prod.fst = some false :=
  ⟨by decide, search_false_of_not_inserted _ _ (by decide)⟩

/-- C3: for every list `L` of words inserted into the empty Trie and every
prefix `P`, `findWordsWithPrefix(P)` returns a sequence without duplicates whose
elements are exactly the words of `L` that have `P` as a prefix. -/
theorem findWordsWithPrefix_exact (L : List (List Char)) (P : List Char) :
    ∃ t ws, Trie.insertAll Trie.new L = some t ∧
      (t.findWordsWithPrefix P).map Prod.fst = some ws ∧
      ws.Nodup ∧ ∀ w, w ∈ ws ↔ (w ∈ L ∧ P <+: w) := by
  have hwf : wellFormed (L.foldl ins TrieNode.new) = true :=
    wellFormed_foldl L _ wellFormed_new
  refine ⟨_, _, Trie.insertAll_eq _ _, ?_, nodup_collected _ P hwf, ?_⟩
  · simp only [Trie.findWordsWithPrefix_eq, Option.map_some']
    rfl
  · intro w
    rw [mem_collected _ _ _ hwf, stored_foldl_new]
    simp [and_comm]

/-- Counterexample to C4 as stated: with no word inserted, `startsWith("")` answers
true although no inserted word has the empty prefix. -/
theorem startsWith_iff_exists_counterexample :
    (Trie.insertAll Trie.new []).bind (fun t => (t.startsWith []).map Prod.fst) = some true ∧
    ¬ ∃ W, W ∈ ([] : List (List Char)) ∧ ([] : List Char) <+: W :=
  ⟨by decide, by simp⟩

/-- C4, amended: for every list `L` of words inserted into the empty Trie and
every prefix `P`, `startsWith(P)` answers true if and only if `P` is empty or
some word of `L` has `P` as a prefix. -/
theorem startsWith_iff_nil_or_exists (L : List (List Char)) (P : List Char) :
    ∃ t b, Trie.insertAll Trie.new L = some t ∧
      (t.startsWith P).map Prod.fst = some b ∧
      (b = true ↔ (P = [] ∨ ∃ W, W ∈ L ∧ P <+: W)) := by
  refine ⟨_, reach (L.foldl ins TrieNode.new) P, Trie.insertAll_eq _ _, ?_, ?_⟩
  · simp only [Trie.startsWith_eq, Option.map_some']
    rfl
  · rw [reach_foldl, reach_new]
    exact or_comm

/-- C5: `startsWith("")` answers true on every Trie, the freshly constructed
one included. -/
theorem startsWith_nil_true :
    (∀ t : Trie, (t.startsWith []).map Prod.fst = some true) ∧
    (Trie.new.startsWith []).map Prod.fst = some true := by
  have h : ∀ t : Trie, (t.startsWith []).map Prod.fst = some true := by
    intro t
    simp [Trie.startsWith_eq, reach_nil]
  exact ⟨h, h _⟩

/-- C6: `insert` is idempotent: on every Trie, a second `insert(W)` leaves the
tree of the first one as it is, so `N ≥ 1` inserts of `W` give the tree of a
single insert and the same answers of `search`, `startsWith` and
`findWordsWithPrefix`. -/
theorem insert_idempotent (t : Trie) (W : List Char) (N : Nat) (hN : 1 ≤ N) :
    ∃ t1, t.insert W = some t1 ∧ t1.insert W = some t1 ∧
      ∃ tN, Trie.insertAll t (List.replicate N W) = some tN ∧ tN = t1 ∧
        ∀ q, tN.search q = t1.search q ∧ tN.startsWith q = t1.startsWith q ∧
          tN.findWordsWithPrefix q = t1.findWordsWithPrefix q := by
  obtain ⟨n, rfl⟩ : ∃ n, N = n + 1 := ⟨N - 1, by omega⟩
  refine ⟨_, Trie.insert_eq _ _, ?_, _, Trie.insertAll_eq _ _, ?_, ?_⟩
  · rw [Trie.insert_eq, ins_ins]
  · rw [foldl_ins_replicate]
  · intro q
    rw [foldl_ins_replicate]
    exact ⟨rfl, rfl, rfl⟩

/-- Witness of C6: three inserts of "do" into the fresh Trie. -/
theorem insert_idempotent_witness :
    1 ≤ 3 ∧
    ∃ t1, Trie.new.insert "do".toList = some t1 ∧ t1.insert "do".toList = some t1 ∧
      ∃ tN, Trie.insertAll Trie.new (List.replicate 3 "do".toList) = some tN ∧ tN = t1 ∧
        ∀ q, tN.search q = t1.search q ∧ tN.startsWith q = t1.startsWith q ∧
          tN.findWordsWithPrefix q = t1.findWordsWithPrefix q :=
  ⟨by decide, insert_idempotent Trie.new "do".toList 3 (by decide)⟩

/-- C7: the observable contents do not depend on the insertion order: for two
lists of words that are permutations of each other, the Tries built from the
empty Trie give the same `search` answer and the same `startsWith` answer for
every query, and `findWordsWithPrefix` returns the same set of words for every
prefix. -/
theorem insertion_order_irrelevant (L1 L2 : List (List Char)) (h : L1.Perm L2) :
    ∃ t1 t2, Trie.insertAll Trie.new L1 = some t1 ∧ Trie.insertAll Trie.new L2 = some t2 ∧
      (∀ q, ∃ b, (t1.search q).map Prod.fst = some b ∧ (t2.search q).map Prod.fst = some b) ∧
      (∀ q, ∃ b, (t1.startsWith q).map Prod.fst = some b ∧
        (t2.startsWith q).map Prod.fst = some b) ∧
      (∀ P, ∃ ws1 ws2, (t1.findWordsWithPrefix P).map Prod.fst = some ws1 ∧
        (t2.findWordsWithPrefix P).map Prod.fst = some ws2 ∧ ∀ w, w ∈ ws1 ↔ w ∈ ws2) := by
  have hwf1 : wellFormed (L1.foldl ins TrieNode.new) = true :=
    wellFormed_foldl L1 _ wellFormed_new
  have hwf2 : wellFormed (L2.foldl ins TrieNode.new) = true :=
    wellFormed_foldl L2 _ wellFormed_new
  refine ⟨_, _, Trie.insertAll_eq _ _, Trie.insertAll_eq _ _, ?_, ?_, ?_⟩
  · intro q
    refine ⟨stored (L1.foldl ins TrieNode.new) q, ?_, ?_⟩
    · simp only [Trie.search_eq, Option.map_some']
      rfl
    · simp only [Trie.search_eq, Option.map_some', Option.some.injEq]
      show stored (L2.foldl ins TrieNode.new) q = stored (L1.foldl ins TrieNode.new) q
      rw [stored_foldl_new, stored_foldl_new]
      exact decide_eq_decide.2 h.symm.mem_iff
  · intro q
    refine ⟨reach (L1.foldl ins TrieNode.new) q, ?_, ?_⟩
    · simp only [Trie.startsWith_eq, Option.map_some']
      rfl
    · simp only [Trie.startsWith_eq, Option.map_some', Option.some.injEq]
      show reach (L2.foldl ins TrieNode.new) q = reach (L1.foldl ins TrieNode.new) q
      rw [Bool.eq_iff_iff, reach_foldl, reach_foldl]
      constructor
      · rintro (⟨w, hw, hp⟩ | hr)
        · exact Or.inl ⟨w, h.symm.mem_iff.1 hw, hp⟩
        · exact Or.inr hr
      · rintro (⟨w, hw, hp⟩ | hr)
        · exact Or.inl ⟨w, h.mem_iff.1 hw, hp⟩
        · exact Or.inr hr
  · intro P
    refine ⟨collected (L1.foldl ins TrieNode.new) P, collected (L2.foldl ins TrieNode.new) P,
      ?_, ?_, ?_⟩
    · simp only [Trie.findWordsWithPrefix_eq, Option.map_some']
      rfl
    · simp only [Trie.findWordsWithPrefix_eq, Option.map_some']
      rfl
    · intro w
      rw [mem_collected _ _ _ hwf1, mem_collected _ _ _ hwf2, stored_foldl_new,
        stored_foldl_new, decide_eq_decide.2 h.mem_iff]

/-- Witness of C7: "data", "do" against "do", "data". -/
theorem insertion_order_irrelevant_witness :
    ["data".toList, "do".toList].Perm ["do".toList, "data".toList] ∧
    ∃ t1 t2, Trie.insertAll Trie.new ["data".toList, "do".toList] = some t1 ∧
      Trie.insertAll Trie.new ["do".toList, "data".toList] = some t2 ∧
      (∀ q, ∃ b, (t1.search q).map Prod.fst = some b ∧ (t2.search q).map Prod.fst = some b) ∧
      (∀ q, ∃ b, (t1.startsWith q).map Prod.fst = some b ∧
        (t2.startsWith q).map Prod.fst = some b) ∧
      (∀ P, ∃ ws1 ws2, (t1.findWordsWithPrefix P).map Prod.fst = some ws1 ∧
        (t2.findWordsWithPrefix P).map Prod.fst = some ws2 ∧ ∀ w, w ∈ ws1 ↔ w ∈ ws2) :=
  ⟨List.Perm.swap _ _ _, insertion_order_irrelevant _ _ (List.Perm.swap _ _ _)⟩

/-- C8: on every Trie, for a prefix `P` whose traversal fails (`startsWith(P)`
answers false), `findWordsWithPrefix(P)` returns the empty sequence as an
ordinary result, without a fault, and leaves the tree as it was. -/
theorem findWordsWithPrefix_nil_of_traversal_fails (t : Trie) (P : List Char)
    (h : (t.startsWith P).map Prod.fst = some false) :
    t.findWordsWithPrefix P = some ([], t) := by
  simp only [Trie.startsWith_eq, Option.map_some', Option.some.injEq] at h
  rw [Trie.findWordsWithPrefix_eq, collected_of_not_reach _ _ h]

/-- Witness of C8: the prefix "x" on the fresh Trie. -/
theorem findWordsWithPrefix_nil_of_traversal_fails_witness :
    (Trie.new.startsWith "x".toList).map Prod.fst = some false ∧
    Trie.new.findWordsWithPrefix "x".toList = some ([], Trie.new) :=
  ⟨by decide, findWordsWithPrefix_nil_of_traversal_fails Trie.new "x".toList (by decide)⟩

/-- C9: `search("")` answers false on the freshly constructed Trie; on any Trie
it answers true after `insert("")`, also after further inserts; and inserting
only non-empty words into a Trie on which `search("")` answers false (the fresh
one for instance) leaves that answer false. -/
theorem search_empty_word (L : List (List Char)) (hL : ∀ w ∈ L, w ≠ []) :
    (Trie.new.search []).map Prod.fst = some false ∧
    (∀ (t0 : Trie) (more : List (List Char)), ∃ t1 t2,
        t0.insert [] = some t1 ∧ (t1.search []).map Prod.fst = some true ∧
        Trie.insertAll t1 more = some t2 ∧ (t2.search []).map Prod.fst = some true) ∧
    (∀ t0 : Trie, (t0.search []).map Prod.fst = some false →
        ∃ t, Trie.insertAll t0 L = some t ∧ (t.search []).map Prod.fst = some false) := by
  refine ⟨by simp [Trie.search_eq, Trie.new, stored_new], ?_, ?_⟩
  · intro t0 more
    refine ⟨_, _, Trie.insert_eq _ _, ?_, Trie.insertAll_eq _ _, ?_⟩
    · simp only [Trie.search_eq, Option.map_some', Option.some.injEq]
      exact (stored_ins _ _ _).2 (Or.inl rfl)
    · simp only [Trie.search_eq, Option.map_some', Option.some.injEq]
      exact (stored_foldl _ _ _).2 (Or.inr ((stored_ins _ _ _).2 (Or.inl rfl)))
  · intro t0 h0
    simp only [Trie.search_eq, Option.map_some', Option.some.injEq] at h0
    refine ⟨_, Trie.insertAll_eq _ _, ?_⟩
    simp only [Trie.search_eq, Option.map_some', Option.some.injEq]
    rw [Bool.eq_false_iff, Ne, stored_foldl]
    rintro (hmem | hst)
    · exact hL [] hmem rfl
    · rw [h0] at hst
      exact Bool.false_ne_true hst

/-- Witness of C9: the words "data" and "do" are non-empty, and after inserting
them into the fresh Trie `search("")` answers false. -/
theorem search_empty_word_witness :
    (∀ w ∈ ["data".toList, "do".toList], w ≠ []) ∧
    ∃ t, Trie.insertAll Trie.new ["data".toList, "do".toList] = some t ∧
      (t.search []).map Prod.fst = some false :=
  ⟨by decide,
    (search_empty_word ["data".toList, "do".toList] (by decide)).2.2 Trie.new (by decide)⟩

/-- C10: `search`, `startsWith` and `findWordsWithPrefix` leave the Trie
unchanged: on every Trie and for every query they return normally and the tree
afterwards, children maps and flags of all nodes, is the tree before; the
child lookups of the traversal create no entry, whether the query is present
or absent. -/
theorem queries_leave_trie_unchanged (t : Trie) (q : List Char) :
    (∃ b, t.search q = some (b, t)) ∧ (∃ b, t.startsWith q = some (b, t)) ∧
    (∃ ws, t.findWordsWithPrefix q = some (ws, t)) :=
  ⟨⟨_, Trie.search_eq t q⟩, ⟨_, Trie.startsWith_eq t q⟩, ⟨_, Trie.findWordsWithPrefix_eq t q⟩⟩

/-! ## Claims C11 to C20 -/

/-- C11: after `insert("data")`, `insert("do")`, `insert("do")` on the empty
Trie, `search("do")` answers true, `search("d")` false, `startsWith("d")` true,
`findWordsWithPrefix("do")` is the one-element sequence of "do",
`findWordsWithPrefix("d")` holds "data" and "do", each once, and
`findWordsWithPrefix("x")` is empty. -/
theorem example_data_do_do :
    ∃ t, Trie.insertAll Trie.new ["data".toList, "do".toList, "do".toList] = some t ∧
      (t.search "do".toList).map Prod.fst = some true ∧
      (t.search "d".toList).map Prod.fst = some false ∧
      (t.startsWith "d".toList).map Prod.fst = some true ∧
      (t.findWordsWithPrefix "do".toList).map Prod.fst = some ["do".toList] ∧
      (∃ ws, (t.findWordsWithPrefix "d".toList).map Prod.fst = some ws ∧
        ws.Perm ["data".toList, "do".toList]) ∧
      (t.findWordsWithPrefix "x".toList).map Prod.fst = some [] := by
  refine ⟨_, Trie.insertAll_eq _ _, ?_, ?_, ?_, ?_, ⟨["data".toList, "do".toList], ?_,
    List.Perm.refl _⟩, ?_⟩ <;> decide

/-- C12: no operation can fail: a child lookup made after the `count(ch)` guard
finds a child, so does the lookup that follows `children[ch] = new TrieNode()`,
and on every Trie and every symbol sequence, the empty one included, `insert`,
`search`, `startsWith` and `findWordsWithPrefix` return normally. -/
theorem operations_never_fail (t : Trie) (w : List Char) :
    (∀ (cs : List (Char × TrieNode)) (ch : Char),
        count cs ch = 0 ∨ (subscript cs ch).isSome = true) ∧
    (∀ (cs : List (Char × TrieNode)) (ch : Char),
        (subscript (assign cs ch TrieNode.new) ch).isSome = true) ∧
    (t.insert w).isSome = true ∧ (t.search w).isSome = true ∧
    (t.startsWith w).isSome = true ∧ (t.findWordsWithPrefix w).isSome = true := by
  refine ⟨?_, ?_, ?_, ?_, ?_, ?_⟩
  · intro cs ch
    by_cases h : count cs ch = 0
    · exact Or.inl h
    · right
      cases hs : subscript cs ch with
      | none => exact absurd ((count_eq_zero_iff cs ch).2 hs) h
      | some c => rfl
  · intro cs ch
    rw [subscript_assign_same]
    rfl
  · rw [Trie.insert_eq]; rfl
  · rw [Trie.search_eq]; rfl
  · rw [Trie.startsWith_eq]; rfl
  · rw [Trie.findWordsWithPrefix_eq]; rfl

/-! ## Termination measures -/

theorem insertLoopSteps_eq (t : TrieNode) (w : List Char) : insertLoopSteps t w = w.length := by
  induction w generalizing t with
  | nil => cases t; rfl
  | cons ch rest ih =>
    obtain ⟨cs, e⟩ := t
    by_cases h0 : count cs ch = 0
    · simp [insertLoopSteps, h0, subscript_assign_same, ih, Nat.add_comm]
    · have hn : subscript cs ch ≠ none := fun h => h0 ((count_eq_zero_iff cs ch).2 h)
      obtain ⟨c, hc⟩ := Option.ne_none_iff_exists'.1 hn
      simp [insertLoopSteps, h0, hc, ih, Nat.add_comm]

theorem traversalSteps_le (t : TrieNode) (w : List Char) : traversalSteps t w ≤ w.length := by
  induction w generalizing t with
  | nil => cases t; simp [traversalSteps]
  | cons ch rest ih =>
    obtain ⟨cs, e⟩ := t
    simp only [traversalSteps, List.length_cons]
    split
    · omega
    · split
      · omega
      · rename_i nxt _
        have := ih nxt
        omega

theorem nodeCount_lt_of_mem (cs : List (Char × TrieNode)) (k : Char) (c : TrieNode)
    (h : (k, c) ∈ cs) : nodeCount c ≤ nodeCountChildren cs := by
  induction cs with
  | nil => simp at h
  | cons hd tl ih =>
    obtain ⟨k1, c1⟩ := hd
    simp only [nodeCountChildren]
    rcases List.mem_cons.1 h with heq | hmem
    · cases heq
      omega
    · have := ih hmem
      omega

mutual
theorem findAllWordsFuel_eq : ∀ (t : TrieNode) (fuel : Nat) (pre : List Char)
    (acc : List (List Char)), nodeCount t ≤ fuel →
    findAllWordsFuel fuel t pre acc = some (findAllWords t pre acc)
  | .mk cs e, 0, _, _, h => by simp [nodeCount] at h
  | .mk cs e, fuel + 1, pre, acc, h => by
    simp only [nodeCount] at h
    simp only [findAllWordsFuel, findAllWords, TrieNode.children, TrieNode.isEndOfWord]
    exact findAllWordsFuel_children_eq cs fuel pre _ (by omega)
theorem findAllWordsFuel_children_eq : ∀ (cs : List (Char × TrieNode)) (fuel : Nat)
    (pre : List Char) (acc : List (List Char)), nodeCountChildren cs ≤ fuel →
    cs.foldlM (fun acc child => findAllWordsFuel fuel child.2 (pre ++ [child.1]) acc) acc
      = some (findAllWordsChildren cs pre acc)
  | [], _, _, _, _ => by simp [findAllWordsChildren]
  | (k, c) :: rest, fuel, pre, acc, h => by
    simp only [nodeCountChildren] at h
    simp only [List.foldlM_cons, findAllWordsChildren]
    rw [findAllWordsFuel_eq c fuel (pre ++ [k]) acc (by omega)]
    simp only [Option.some_bind, Option.bind_eq_bind]
    exact findAllWordsFuel_children_eq rest fuel pre _ (by omega)
end


/-- C13: every operation terminates: the loop of `insert` runs once per symbol
of its argument and the traversal loop of `search`, `startsWith` and
`findWordsWithPrefix` at most once per symbol; every recursive call of
`findAllWords` is on a child whose subtree has fewer nodes than the subtree of
the node it is called from, so with recursion depth `fuel` at least the number
of nodes the collection returns its result. -/
theorem operations_terminate (t : Trie) (w pre : List Char) (acc : List (List Char))
    (fuel : Nat) (hfuel : nodeCount t.root ≤ fuel) :
    insertLoopSteps t.root w = w.length ∧ traversalSteps t.root w ≤ w.length ∧
    (∀ k c, (k, c) ∈ t.root.children → nodeCount c < nodeCount t.root) ∧
    findAllWordsFuel fuel t.root pre acc = some (findAllWords t.root pre acc) := by
  refine ⟨insertLoopSteps_eq _ _, traversalSteps_le _ _, ?_, findAllWordsFuel_eq _ _ _ _ hfuel⟩
  intro k c hmem
  obtain ⟨⟨cs, e⟩⟩ := t
  have := nodeCount_lt_of_mem cs k c hmem
  simp only [nodeCount]
  omega

/-- Witness of C13: the Trie holding "data" and "do" has six nodes; six levels
of recursion suffice. -/
theorem operations_terminate_witness :
    nodeCount dataDo.root ≤ 6 ∧
    findAllWordsFuel 6 dataDo.root [] [] = some (findAllWords dataDo.root [] []) :=
  ⟨by decide, (operations_terminate dataDo [] [] [] 6 (by decide)).2.2.2⟩

/-! ## Counting the collected words -/

mutual
theorem length_findAllWords : ∀ (t : TrieNode) (pre : List Char),
    (findAllWords t pre []).length = terminalCount t
  | .mk cs e, pre => by
    simp only [findAllWords, terminalCount]
    rw [findAllWordsChildren_acc, List.length_append, length_findAllWordsChildren cs pre]
    cases e <;> simp
theorem length_findAllWordsChildren : ∀ (cs : List (Char × TrieNode)) (pre : List Char),
    (findAllWordsChildren cs pre []).length = terminalCountChildren cs
  | [], _ => by simp [findAllWordsChildren, terminalCountChildren]
  | (k, c) :: rest, pre => by
    simp only [findAllWordsChildren, terminalCountChildren]
    rw [findAllWordsChildren_acc, List.length_append, length_findAllWords c (pre ++ [k]),
      length_findAllWordsChildren rest pre]
end

theorem stored_iff_walk (t : TrieNode) (s : List Char) :
    stored t s = true ↔ ∃ m, walk t s = some m ∧ m.isEndOfWord = true := by
  unfold stored
  cases walk t s with
  | none => simp
  | some m => simp

/-- C14: on a well-formed Trie, for a prefix `P` whose traversal succeeds and
ends in the node `n`, `findWordsWithPrefix(P)` returns as many entries as the
subtree of `n` has flagged nodes (`n` included), without repetition, and its
entries are exactly `P` followed by the path from `n` to a flagged node. -/
theorem findWordsWithPrefix_lists_terminals (t : Trie) (P : List Char) (n : TrieNode)
    (hwf : wellFormed t.root = true) (hP : walk t.root P = some n) :
    (t.startsWith P).map Prod.fst = some true ∧
    ∃ ws, t.findWordsWithPrefix P = some (ws, t) ∧ ws.length = terminalCount n ∧ ws.Nodup ∧
      ∀ x, x ∈ ws ↔ ∃ s m, x = P ++ s ∧ walk n s = some m ∧ m.isEndOfWord = true := by
  have hn : wellFormed n = true := wellFormed_walk _ _ _ hwf hP
  refine ⟨by simp [Trie.startsWith_eq, reach, hP], collected t.root P,
    Trie.findWordsWithPrefix_eq _ _, ?_, nodup_collected _ _ hwf, ?_⟩
  · simp only [collected, hP]
    exact length_findAllWords n P
  · intro x
    simp only [collected, hP]
    rw [mem_findAllWords n P x hn]
    constructor
    · rintro ⟨s, rfl, h⟩
      obtain ⟨m, hm, hf⟩ := (stored_iff_walk n s).1 h
      exact ⟨s, m, rfl, hm, hf⟩
    · rintro ⟨s, m, rfl, hm, hf⟩
      exact ⟨s, rfl, (stored_iff_walk n s).2 ⟨m, hm, hf⟩⟩

/-- Witness of C14: the prefix "d" on the Trie holding "data" and "do". -/
theorem findWordsWithPrefix_lists_terminals_witness :
    wellFormed dataDo.root = true ∧
    ∃ n, walk dataDo.root "d".toList = some n ∧
      ∃ ws, dataDo.findWordsWithPrefix "d".toList = some (ws, dataDo) ∧
        ws.length = terminalCount n :=
  ⟨by decide, _, rfl,
    (findWordsWithPrefix_lists_terminals dataDo "d".toList _ (by decide) rfl).2.imp
      (fun _ h => ⟨h.1, h.2.1⟩)⟩

/-! ## Shape of the tree after `insert` -/

theorem matchedLength_new (w : List Char) : matchedLength TrieNode.new w = 0 := by
  cases w <;> simp [TrieNode.new, matchedLength, subscript]

theorem nodeCountChildren_assign_none (cs : List (Char × TrieNode)) (ch : Char) (v : TrieNode)
    (h : subscript cs ch = none) :
    nodeCountChildren (assign cs ch v) = nodeCountChildren cs + nodeCount v := by
  induction cs with
  | nil => simp [assign, nodeCountChildren]
  | cons hd tl ih =>
    obtain ⟨k, u⟩ := hd
    by_cases hk : k = ch
    · simp [subscript, hk] at h
    · simp only [subscript, hk, if_false] at h
      simp only [assign, hk, if_false, nodeCountChildren, ih h]
      omega

theorem nodeCountChildren_assign_some (cs : List (Char × TrieNode)) (ch : Char)
    (c v : TrieNode) (h : subscript cs ch = some c) :
    nodeCountChildren (assign cs ch v) + nodeCount c = nodeCountChildren cs + nodeCount v := by
  induction cs with
  | nil => simp [subscript] at h
  | cons hd tl ih =>
    obtain ⟨k, u⟩ := hd
    by_cases hk : k = ch
    · simp only [subscript, hk, if_true, Option.some.injEq] at h
      subst h
      simp only [assign, hk, if_true, nodeCountChildren]
      omega
    · simp only [subscript, hk, if_false] at h
      have := ih h
      simp only [assign, hk, if_false, nodeCountChildren]
      omega

theorem nodeCount_ins (t : TrieNode) (w : List Char) :
    nodeCount (ins t w) = nodeCount t + (w.length - matchedLength t w) := by
  induction w generalizing t with
  | nil => cases t; simp [ins, nodeCount, matchedLength]
  | cons ch rest ih =>
    obtain ⟨cs, e⟩ := t
    simp only [ins, nodeCount, matchedLength, List.length_cons]
    cases hs : subscript cs ch with
    | none =>
      simp only [Option.getD_none]
      rw [nodeCountChildren_assign_none _ _ _ hs, ih, matchedLength_new]
      simp only [TrieNode.new, nodeCount, nodeCountChildren]
      omega
    | some c =>
      simp only [Option.getD_some]
      have h1 := nodeCountChildren_assign_some cs ch c (ins c rest) hs
      have h2 := ih c
      omega

theorem matchedLength_le (t : TrieNode) (w : List Char) : matchedLength t w ≤ w.length := by
  induction w generalizing t with
  | nil => cases t; simp [matchedLength]
  | cons ch rest ih =>
    obtain ⟨cs, e⟩ := t
    simp only [matchedLength, List.length_cons]
    cases subscript cs ch with
    | none => simp
    | some c =>
      have := ih c
      simp only
      omega

theorem reach_take_matchedLength (t : TrieNode) (w : List Char) :
    reach t (w.take (matchedLength t w)) = true := by
  induction w generalizing t with
  | nil => simp [reach_nil]
  | cons ch rest ih =>
    obtain ⟨cs, e⟩ := t
    simp only [matchedLength]
    cases hs : subscript cs ch with
    | none => simp [reach_nil]
    | some c =>
      simp only
      rw [Nat.add_comm, List.take_succ_cons, reach_cons, hs]
      exact ih c

theorem length_le_matchedLength (t : TrieNode) (w p : List Char) (hp : p <+: w)
    (hr : reach t p = true) : p.length ≤ matchedLength t w := by
  induction w generalizing t p with
  | nil =>
    have : p = [] := List.prefix_nil.1 hp
    simp [this]
  | cons ch rest ih =>
    obtain ⟨cs, e⟩ := t
    cases p with
    | nil => simp
    | cons c p =>
      obtain ⟨rfl, hp1⟩ := List.cons_prefix_cons.1 hp
      rw [reach_cons] at hr
      simp only [matchedLength, List.length_cons]
      cases hs : subscript cs c with
      | none => simp [hs] at hr
      | some n =>
        simp only [hs] at hr
        have := ih n p hp1 hr
        simp only
        omega

theorem count_le_count_assign (cs : List (Char × TrieNode)) (ch : Char) (v : TrieNode)
    (k : Char) : count cs k ≤ count (assign cs ch v) k := by
  induction cs with
  | nil => simp [count]
  | cons hd tl ih =>
    obtain ⟨k1, u⟩ := hd
    by_cases hk : k1 = ch
    · simp [assign, hk, count, List.countP_cons]
    · have h1 : count tl k ≤ count (assign tl ch v) k := ih
      simp only [count] at h1
      simp only [assign, hk, if_false, count, List.countP_cons]
      omega

theorem walk_ins (t : TrieNode) (w p : List Char) (n : TrieNode) (h : walk t p = some n) :
    ∃ n1, walk (ins t w) p = some n1 ∧ (n.isEndOfWord = true → n1.isEndOfWord = true) ∧
      (∀ k, count n.children k ≤ count n1.children k) ∧ (¬ p <+: w → n1 = n) := by
  induction w generalizing t p n with
  | nil =>
    obtain ⟨cs, e⟩ := t
    cases p with
    | nil =>
      simp only [walk, Option.some.injEq] at h
      subst h
      exact ⟨_, rfl, fun _ => rfl, fun _ => Nat.le_refl _,
        fun hn => absurd (List.prefix_refl _) hn⟩
    | cons c p =>
      refine ⟨n, ?_, id, fun _ => Nat.le_refl _, fun _ => rfl⟩
      simpa [ins, walk] using h
  | cons ch rest ih =>
    obtain ⟨cs, e⟩ := t
    cases p with
    | nil =>
      simp only [walk, Option.some.injEq] at h
      subst h
      exact ⟨_, rfl, id, fun k => count_le_count_assign _ _ _ k,
        fun hn => absurd List.nil_prefix hn⟩
    | cons c p =>
      simp only [walk] at h
      by_cases hc : c = ch
      · subst hc
        cases hs : subscript cs c with
        | none => simp [hs] at h
        | some c0 =>
          simp only [hs] at h
          obtain ⟨n1, h1, h2, h3, h4⟩ := ih c0 p n h
          refine ⟨n1, ?_, h2, h3, fun hn => h4 (fun hp => hn (List.cons_prefix_cons.2 ⟨rfl, hp⟩))⟩
          simp only [ins, walk, subscript_assign_same, hs, Option.getD_some]
          exact h1
      · refine ⟨n, ?_, id, fun _ => Nat.le_refl _, fun _ => rfl⟩
        simp only [ins, walk, subscript_assign_other _ _ _ _ hc]
        exact h


/-- C15: `insert(W)` changes the shape only by creating the missing children
along the path of `W`: with `m` the length of the longest prefix of `W` that is
already a path from the root, the number of nodes grows by `|W| - m`; every
path that led to a node still does, every key of that node still has its
entry (`count` does not drop for any key), a flag that was true stays true, a
node off the path of `W` is left as it was, and every path of the new tree is
an old path or a prefix of `W`. -/
theorem insert_only_adds_path (t : Trie) (W : List Char) :
    ∃ t1 m, t.insert W = some t1 ∧ m ≤ W.length ∧
      (t.startsWith (W.take m)).map Prod.fst = some true ∧
      (∀ p, p <+: W → (t.startsWith p).map Prod.fst = some true → p.length ≤ m) ∧
      nodeCount t1.root = nodeCount t.root + (W.length - m) ∧
      (∀ p n, walk t.root p = some n →
        ∃ n1, walk t1.root p = some n1 ∧ (n.isEndOfWord = true → n1.isEndOfWord = true) ∧
          (∀ k, count n.children k ≤ count n1.children k) ∧ (¬ p <+: W → n1 = n)) ∧
      (∀ p, (t1.startsWith p).map Prod.fst = some true →
        p <+: W ∨ (t.startsWith p).map Prod.fst = some true) := by
  refine ⟨_, matchedLength t.root W, Trie.insert_eq _ _, matchedLength_le _ _, ?_, ?_,
    nodeCount_ins _ _, fun p n h => walk_ins _ _ _ _ h, ?_⟩
  · simp [Trie.startsWith_eq, reach_take_matchedLength]
  · intro p hp hr
    simp only [Trie.startsWith_eq, Option.map_some', Option.some.injEq] at hr
    exact length_le_matchedLength _ _ _ hp hr
  · intro p hr
    simp only [Trie.startsWith_eq, Option.map_some', Option.some.injEq] at hr ⊢
    exact (reach_ins _ _ _).1 hr

/-! ## The dataset reader refines its per-line contract -/

theorem mem_whitespace (c : Char) : c ∈ whitespace ↔ specBlank c = true := by
  simp [whitespace, specBlank, or_assoc]

theorem rdropWhile_cons_eq (p : Char → Bool) (c : Char) (l : List Char) :
    (c :: l).rdropWhile p =
      if l.rdropWhile p = [] then (if p c then [] else [c]) else c :: l.rdropWhile p := by
  by_cases h : l.rdropWhile p = []
  · have hall : ∀ x ∈ l.reverse, p x = true := by
      intro x hx
      exact (List.rdropWhile_eq_nil_iff.1 h) x (List.mem_reverse.1 hx)
    simp only [h, if_true]
    unfold List.rdropWhile
    rw [List.reverse_cons, List.dropWhile_append_of_pos hall]
    by_cases hc : p c = true <;> simp [List.dropWhile, hc]
  · simp only [h, if_false]
    have hne : (l.reverse.dropWhile p).isEmpty = false := by
      cases hd : l.reverse.dropWhile p with
      | nil => exact absurd (by simp [List.rdropWhile, hd]) h
      | cons a b => rfl
    unfold List.rdropWhile
    rw [List.reverse_cons, List.dropWhile_append, hne]
    simp

theorem find_last_none_iff (line : List Char) :
    find_last_not_of line whitespace = none ↔ ∀ c ∈ line, specBlank c = true := by
  induction line with
  | nil => simp [find_last_not_of]
  | cons c rest ih =>
    simp only [find_last_not_of, List.mem_cons, forall_eq_or_imp]
    cases h : find_last_not_of rest whitespace with
    | some i =>
      have hn : ¬ ∀ c ∈ rest, specBlank c = true := fun hall => by
        rw [ih.2 hall] at h
        exact Option.noConfusion h
      simp [hn]
    | none =>
      have hall := ih.1 h
      by_cases hc : c ∈ whitespace
      · simp only [hc, if_true, (mem_whitespace c).1 hc, true_and, true_iff]
        exact hall
      · have : ¬ specBlank c = true := fun hb => hc ((mem_whitespace c).2 hb)
        simp [hc, this]

theorem find_last_take (line : List Char) (e : Nat)
    (h : find_last_not_of line whitespace = some e) :
    line.take (e + 1) = line.rdropWhile specBlank := by
  induction line generalizing e with
  | nil => simp [find_last_not_of] at h
  | cons c rest ih =>
    simp only [find_last_not_of] at h
    rw [rdropWhile_cons_eq]
    cases hr : find_last_not_of rest whitespace with
    | some i =>
      simp only [hr, Option.some.injEq] at h
      subst h
      have hne : rest.rdropWhile specBlank ≠ [] := by
        intro hnil
        rw [(find_last_none_iff rest).2 (List.rdropWhile_eq_nil_iff.1 hnil)] at hr
        exact Option.noConfusion hr
      simp only [hne, if_false, List.take_succ_cons, ih i hr]
    | none =>
      simp only [hr] at h
      by_cases hc : c ∈ whitespace
      · simp [hc] at h
      · simp only [hc, if_false, Option.some.injEq] at h
        subst h
        have hnil : rest.rdropWhile specBlank = [] :=
          List.rdropWhile_eq_nil_iff.2 ((find_last_none_iff rest).1 hr)
        have : ¬ specBlank c = true := fun hb => hc ((mem_whitespace c).2 hb)
        simp [hnil, this]

theorem find_first_none_iff (line : List Char) :
    find_first_not_of line whitespace = none ↔ ∀ c ∈ line, specBlank c = true := by
  induction line with
  | nil => simp [find_first_not_of]
  | cons c rest ih =>
    simp only [find_first_not_of, List.mem_cons, forall_eq_or_imp]
    by_cases hc : c ∈ whitespace
    · simp [hc, (mem_whitespace c).1 hc, ih]
    · have : ¬ specBlank c = true := fun hb => hc ((mem_whitespace c).2 hb)
      simp [hc, this]

theorem find_first_drop (line : List Char) (s : Nat)
    (h : find_first_not_of line whitespace = some s) :
    s ≤ line.length ∧ line.drop s = line.dropWhile specBlank := by
  induction line generalizing s with
  | nil => simp [find_first_not_of] at h
  | cons c rest ih =>
    simp only [find_first_not_of] at h
    by_cases hc : c ∈ whitespace
    · simp only [hc, if_true, Option.map_eq_some'] at h
      obtain ⟨s1, hs1, rfl⟩ := h
      obtain ⟨h1, h2⟩ := ih s1 hs1
      refine ⟨by simp only [List.length_cons]; omega, ?_⟩
      simp [List.dropWhile_cons, (mem_whitespace c).1 hc, h2]
    · simp only [hc, if_false, Option.some.injEq] at h
      subst h
      have : ¬ specBlank c = true := fun hb => hc ((mem_whitespace c).2 hb)
      simp [List.dropWhile_cons, this]

theorem find_first_le_last (line : List Char) (s e : Nat)
    (hs : find_first_not_of line whitespace = some s)
    (he : find_last_not_of line whitespace = some e) :
    s ≤ e ∧ find_last_not_of (line.drop s) whitespace = some (e - s) := by
  induction line generalizing s e with
  | nil => simp [find_first_not_of] at hs
  | cons c rest ih =>
    simp only [find_first_not_of] at hs
    by_cases hc : c ∈ whitespace
    · simp only [hc, if_true, Option.map_eq_some'] at hs
      obtain ⟨s1, hs1, rfl⟩ := hs
      simp only [find_last_not_of] at he
      cases hr : find_last_not_of rest whitespace with
      | some i =>
        simp only [hr, Option.some.injEq] at he
        subst he
        obtain ⟨h1, h2⟩ := ih s1 i hs1 hr
        refine ⟨by omega, ?_⟩
        rw [List.drop_succ_cons, h2]
        congr 1
        omega
      | none => simp [hr, hc] at he
    · simp only [hc, if_false, Option.some.injEq] at hs
      subst hs
      exact ⟨Nat.zero_le _, by simpa using he⟩


theorem find?_not_blank (line : List Char) :
    line.find? (fun c => !specBlank c) = (line.dropWhile specBlank).head? := by
  induction line with
  | nil => rfl
  | cons c rest ih =>
    by_cases hc : specBlank c = true
    · simp [List.find?_cons, List.dropWhile_cons, hc, ih]
    · simp [List.find?_cons, List.dropWhile_cons, hc]

theorem specKept_of_blank (line : List Char) (h : ∀ c ∈ line, specBlank c = true) :
    specKept line = false := by
  have : line.find? (fun c => !specBlank c) = none := by
    rw [List.find?_eq_none]
    intro x hx
    simp [h x hx]
  simp [specKept, this]

theorem specTrimmed_cons (line : List Char) (c : Char) (tl : List Char)
    (hd : line.dropWhile specBlank = c :: tl) :
    specBlank c = false ∧ ∃ tl1, specTrimmed line = c :: tl1 := by
  have hc : specBlank c = false := by
    have := List.head_dropWhile_not specBlank line (by rw [hd]; exact List.cons_ne_nil _ _)
    simpa [hd] using this
  refine ⟨hc, ?_⟩
  unfold specTrimmed
  rw [hd, rdropWhile_cons_eq]
  by_cases h : tl.rdropWhile specBlank = []
  · exact ⟨[], by simp [h, hc]⟩
  · exact ⟨tl.rdropWhile specBlank, by simp [h]⟩

theorem readWordsLoop_cons (line : List Char) (rest words : List (List Char)) :
    readWordsLoop (line :: rest) words =
      readWordsLoop rest (words ++ (if specKept line = true then [specTrimmed line] else [])) := by
  cases hs : find_first_not_of line whitespace with
  | none =>
    simp [readWordsLoop, hs, specKept_of_blank line ((find_first_none_iff line).1 hs)]
  | some s =>
    cases he : find_last_not_of line whitespace with
    | none =>
      simp [readWordsLoop, hs, he, specKept_of_blank line ((find_last_none_iff line).1 he)]
    | some e =>
      obtain ⟨hlen, hdrop⟩ := find_first_drop line s hs
      obtain ⟨_, hlast⟩ := find_first_le_last line s e hs he
      have htrim : (line.drop s).take (e - s + 1) = specTrimmed line := by
        rw [find_last_take (line.drop s) (e - s) hlast, hdrop]
        rfl
      have hne : line.dropWhile specBlank ≠ [] := by
        intro hnil
        rw [(find_first_none_iff line).2 (List.dropWhile_eq_nil_iff.1 hnil)] at hs
        exact Option.noConfusion hs
      obtain ⟨c, tl, hd⟩ := List.exists_cons_of_ne_nil hne
      obtain ⟨hc, tl1, ht⟩ := specTrimmed_cons line c tl hd
      have hkept : specKept line = (c != '#') := by
        simp [specKept, find?_not_blank, hd]
      simp only [readWordsLoop, hs, he, substr, hlen, if_true, htrim, hkept]
      by_cases hsharp : c = '#'
      · simp [ht, hsharp]
      · simp [ht, hsharp]

theorem readWordsLoop_eq (lines words : List (List Char)) :
    readWordsLoop lines words = some (words ++ specWords lines) := by
  induction lines generalizing words with
  | nil => simp [readWordsLoop, specWords]
  | cons line rest ih =>
    rw [readWordsLoop_cons, ih]
    by_cases hk : specKept line = true
    · simp [specWords, List.filter_cons, hk]
    · simp [specWords, List.filter_cons, hk]

theorem specWords_shape (lines : List (List Char)) (w : List Char) (hw : w ∈ specWords lines) :
    ∃ a b, w.head? = some a ∧ w.getLast? = some b ∧
      specBlank a = false ∧ specBlank b = false ∧ a ≠ '#' := by
  simp only [specWords, List.mem_map, List.mem_filter] at hw
  obtain ⟨line, ⟨_, hk⟩, rfl⟩ := hw
  have hne : line.dropWhile specBlank ≠ [] := by
    intro hnil
    rw [specKept_of_blank line (List.dropWhile_eq_nil_iff.1 hnil)] at hk
    exact Bool.false_ne_true hk
  obtain ⟨c, tl, hd⟩ := List.exists_cons_of_ne_nil hne
  obtain ⟨hc, tl1, ht⟩ := specTrimmed_cons line c tl hd
  have hkept : specKept line = (c != '#') := by
    simp [specKept, find?_not_blank, hd]
  have hT : (line.dropWhile specBlank).rdropWhile specBlank ≠ [] := by
    intro hnil
    have : specTrimmed line = [] := hnil
    rw [ht] at this
    exact List.cons_ne_nil _ _ this
  refine ⟨c, (specTrimmed line).getLast (by rw [ht]; exact List.cons_ne_nil _ _), ?_, ?_, hc,
    ?_, ?_⟩
  · rw [ht]; rfl
  · exact List.getLast?_eq_getLast _ _
  · have := List.rdropWhile_last_not (p := specBlank) (l := line.dropWhile specBlank) hT
    simpa [specTrimmed] using this
  · rw [hkept] at hk
    simpa using hk

/-- C16: for every sequence of lines, the words that the reading loop of
`readWordsFromFile` produces are, in the order of the lines, the trimmed form
(from the first to the last character outside {space, tab, CR, LF}) of each line
that has such a character and whose first such character is not `#`; so every
word is non-empty, begins and ends with a character outside that set, and does
not begin with `#`. -/
theorem readWordsFromFile_spec (lines : List (List Char)) :
    readWordsFromFile (some lines) = some (specWords lines) ∧
    ∀ w, w ∈ specWords lines → w ≠ [] ∧ ∃ a b, w.head? = some a ∧ w.getLast? = some b ∧
      specBlank a = false ∧ specBlank b = false ∧ a ≠ '#' := by
  refine ⟨by simp [readWordsFromFile, readWordsLoop_eq], ?_⟩
  intro w hw
  obtain ⟨a, b, ha, hb, h1, h2, h3⟩ := specWords_shape lines w hw
  refine ⟨?_, a, b, ha, hb, h1, h2, h3⟩
  rintro rfl
  simp at ha

/-- C17: the input of the demonstration never flags the root: whatever the
dataset file holds (or when it cannot be opened), the Trie built by inserting
every word that `readWordsFromFile` returns, as `main` does, has a root that is
not flagged, and `search("")` answers false on it. -/
theorem dataset_leaves_root_unflagged (file : Option (List (List Char))) :
    ∃ words t, readWordsFromFile file = some words ∧
      Trie.insertAll Trie.new words = some t ∧
      t.root.isEndOfWord = false ∧ (t.search []).map Prod.fst = some false := by
  have key : ∀ words : List (List Char), ([] : List Char) ∉ words →
      stored (words.foldl ins Trie.new.root) [] = false := by
    intro words hn
    show stored (words.foldl ins TrieNode.new) [] = false
    rw [stored_foldl_new]
    simp [hn]
  have flag : ∀ n : TrieNode, n.isEndOfWord = stored n [] := by
    intro n
    cases n
    rfl
  cases file with
  | none =>
    refine ⟨[], _, rfl, Trie.insertAll_eq _ _, ?_, ?_⟩
    · rw [flag]
      exact key [] (by simp)
    · rw [Trie.search_eq]
      exact congrArg some (key [] (by simp))
  | some lines =>
    have hn : ([] : List Char) ∉ specWords lines := fun hmem => by
      obtain ⟨a, _, ha, _⟩ := specWords_shape lines [] hmem
      simp at ha
    have hread : readWordsFromFile (some lines) = some (specWords lines) := by
      simp [readWordsFromFile, readWordsLoop_eq]
    refine ⟨specWords lines, _, hread, Trie.insertAll_eq _ _, ?_, ?_⟩
    · rw [flag]
      exact key _ hn
    · rw [Trie.search_eq]
      exact congrArg some (key _ hn)


/-! ## No dead ends -/

theorem walk_leaf (n : TrieNode) (h : n.children = []) (s : List Char) (m : TrieNode)
    (hw : walk n s = some m) : s = [] ∧ m = n := by
  obtain ⟨cs, e⟩ := n
  simp only [TrieNode.children] at h
  subst h
  cases s with
  | nil =>
    simp only [walk, Option.some.injEq] at hw
    exact ⟨rfl, hw.symm⟩
  | cons c s => simp [walk, subscript] at hw

mutual
theorem exists_leaf : ∀ n : TrieNode, ∃ s m, walk n s = some m ∧ m.children = []
  | .mk cs e => by
    by_cases hcs : cs = []
    · exact ⟨[], _, rfl, hcs⟩
    · obtain ⟨s, m, h1, h2⟩ := exists_leaf_children cs hcs
      exact ⟨s, m, h1 e, h2⟩
theorem exists_leaf_children : ∀ cs : List (Char × TrieNode), cs ≠ [] →
    ∃ s m, (∀ e, walk (.mk cs e) s = some m) ∧ m.children = []
  | [], h => absurd rfl h
  | (k, c) :: rest, _ => by
    obtain ⟨s, m, h1, h2⟩ := exists_leaf c
    exact ⟨k :: s, m, fun e => by simp [walk, subscript, h1], h2⟩
end


theorem leadsToWord_of_noDeadEnds (t : TrieNode) (h : NoDeadEnds t) : LeadsToWord t := by
  intro p n hp hw
  obtain ⟨s, m, hs, hm⟩ := exists_leaf n
  refine ⟨s, m, hs, h (p ++ s) m (by simp [hp]) ?_ hm⟩
  rw [walk_append, hw]
  exact hs

theorem noDeadEnds_of_leadsToWord (t : TrieNode) (h : LeadsToWord t) : NoDeadEnds t := by
  intro p n hp hw hleaf
  obtain ⟨s, m, hs, hm⟩ := h p n hp hw
  obtain ⟨_, rfl⟩ := walk_leaf n hleaf s m hs
  exact hm

theorem leadsToWord_new : LeadsToWord TrieNode.new := by
  intro p n hp hw
  cases p with
  | nil => exact absurd rfl hp
  | cons c p => simp [TrieNode.new, walk, subscript] at hw

theorem reach_of_walk (t n : TrieNode) (p : List Char) (h : walk t p = some n) :
    reach t p = true := by
  simp [reach, h]

theorem leadsToWord_ins (t : TrieNode) (w : List Char) (h : LeadsToWord t) :
    LeadsToWord (ins t w) := by
  intro p n hp hw
  rcases (reach_ins t w p).1 (reach_of_walk _ _ _ hw) with ⟨s, rfl⟩ | hr
  · obtain ⟨m, hm, hf⟩ := (stored_iff_walk _ _).1 ((stored_ins t (p ++ s) (p ++ s)).2 (Or.inl rfl))
    rw [walk_append, hw] at hm
    exact ⟨s, m, hm, hf⟩
  · obtain ⟨n0, hn0⟩ := Option.isSome_iff_exists.1 hr
    obtain ⟨s, m0, hs, hf0⟩ := h p n0 hp hn0
    have hst : stored t (p ++ s) = true :=
      (stored_iff_walk _ _).2 ⟨m0, by rw [walk_append, hn0]; exact hs, hf0⟩
    obtain ⟨m, hm, hf⟩ := (stored_iff_walk _ _).1 ((stored_ins t w (p ++ s)).2 (Or.inr hst))
    rw [walk_append, hw] at hm
    exact ⟨s, m, hm, hf⟩

theorem leadsToWord_foldl (L : List (List Char)) (t : TrieNode) (h : LeadsToWord t) :
    LeadsToWord (L.foldl ins t) := by
  induction L generalizing t with
  | nil => exact h
  | cons w L ih => exact ih _ (leadsToWord_ins t w h)

/-- C18: no dead ends: the two forms of the invariant, every node other than
the root that has no children is flagged, and every node other than the root
has a flagged node in its own subtree, are equivalent on every Trie; the empty
Trie satisfies the invariant, every `insert` preserves it, and so every Trie
built from the empty one by a sequence of inserts satisfies it. -/
theorem no_dead_ends (L : List (List Char)) :
    NoDeadEnds Trie.new.root ∧
    (∀ t : Trie, NoDeadEnds t.root ↔ LeadsToWord t.root) ∧
    (∀ (t : Trie) (w : List Char), NoDeadEnds t.root →
      ∃ t1, t.insert w = some t1 ∧ NoDeadEnds t1.root) ∧
    ∃ t, Trie.insertAll Trie.new L = some t ∧ NoDeadEnds t.root ∧ LeadsToWord t.root := by
  refine ⟨noDeadEnds_of_leadsToWord _ leadsToWord_new,
    fun t => ⟨leadsToWord_of_noDeadEnds _, noDeadEnds_of_leadsToWord _⟩, ?_, ?_⟩
  · intro t w h
    exact ⟨_, Trie.insert_eq _ _,
      noDeadEnds_of_leadsToWord _ (leadsToWord_ins _ w (leadsToWord_of_noDeadEnds _ h))⟩
  · have h := leadsToWord_foldl L _ leadsToWord_new
    exact ⟨_, Trie.insertAll_eq _ _, noDeadEnds_of_leadsToWord _ h, h⟩

theorem collected_ne_nil_iff (L : List (List Char)) (P : List Char) :
    collected (L.foldl ins TrieNode.new) P ≠ [] ↔ ∃ x, x ∈ L ∧ P <+: x := by
  have hwf : wellFormed (L.foldl ins TrieNode.new) = true :=
    wellFormed_foldl L _ wellFormed_new
  constructor
  · intro hne
    obtain ⟨x, hx⟩ := List.exists_mem_of_ne_nil _ hne
    rw [mem_collected _ _ _ hwf, stored_foldl_new] at hx
    exact ⟨x, by simpa using hx.2, hx.1⟩
  · rintro ⟨x, hx, hp⟩ hnil
    have hmem : x ∈ collected (L.foldl ins TrieNode.new) P := by
      rw [mem_collected _ _ _ hwf, stored_foldl_new]
      exact ⟨hp, by simpa using hx⟩
    rw [hnil] at hmem
    exact List.not_mem_nil _ hmem

/-- C19: on a Trie built from the empty one by inserting at least one word,
`startsWith(P)` answers true exactly when `findWordsWithPrefix(P)` is not
empty; and on any Trie built by inserts, the traversal of
`findWordsWithPrefix` succeeds with an empty collection only when no word was
inserted and `P` is empty. -/
theorem startsWith_iff_findWords_nonempty (L : List (List Char)) (hL : L ≠ [])
    (P : List Char) :
    (∃ t b ws, Trie.insertAll Trie.new L = some t ∧
      (t.startsWith P).map Prod.fst = some b ∧
      (t.findWordsWithPrefix P).map Prod.fst = some ws ∧ (b = true ↔ ws ≠ [])) ∧
    (∀ (L0 : List (List Char)) (P0 : List Char) (t : Trie),
      Trie.insertAll Trie.new L0 = some t →
      (t.startsWith P0).map Prod.fst = some true →
      (t.findWordsWithPrefix P0).map Prod.fst = some [] → L0 = [] ∧ P0 = []) := by
  constructor
  · refine ⟨_, reach (L.foldl ins TrieNode.new) P, collected (L.foldl ins TrieNode.new) P,
      Trie.insertAll_eq _ _, ?_, ?_, ?_⟩
    · simp only [Trie.startsWith_eq, Option.map_some']
      rfl
    · simp only [Trie.findWordsWithPrefix_eq, Option.map_some']
      rfl
    · rw [collected_ne_nil_iff, reach_foldl, reach_new]
      constructor
      · rintro (⟨w, hw, hp⟩ | rfl)
        · exact ⟨w, hw, hp⟩
        · obtain ⟨w, hw⟩ := List.exists_mem_of_ne_nil _ hL
          exact ⟨w, hw, List.nil_prefix⟩
      · rintro ⟨w, hw, hp⟩
        exact Or.inl ⟨w, hw, hp⟩
  · intro L0 P0 t ht hs hf
    rw [Trie.insertAll_eq, Option.some.injEq] at ht
    subst ht
    simp only [Trie.startsWith_eq, Option.map_some', Option.some.injEq] at hs
    simp only [Trie.findWordsWithPrefix_eq, Option.map_some', Option.some.injEq] at hf
    have hs1 : reach (L0.foldl ins TrieNode.new) P0 = true := hs
    have hf1 : collected (L0.foldl ins TrieNode.new) P0 = [] := hf
    have hnone : ¬ ∃ x, x ∈ L0 ∧ P0 <+: x := fun hex =>
      (collected_ne_nil_iff L0 P0).2 hex hf1
    rw [reach_foldl, reach_new] at hs1
    have hP : P0 = [] := by
      rcases hs1 with ⟨w, hw, hp⟩ | h
      · exact absurd ⟨w, hw, hp⟩ hnone
      · exact h
    refine ⟨?_, hP⟩
    subst hP
    by_contra hne
    obtain ⟨w, hw⟩ := List.exists_mem_of_ne_nil _ hne
    exact hnone ⟨w, hw, List.nil_prefix⟩

/-- Witness of C19: the list holding "data" and "do", and the prefix "d". -/
theorem startsWith_iff_findWords_nonempty_witness :
    ["data".toList, "do".toList] ≠ [] ∧
    ∃ t b ws, Trie.insertAll Trie.new ["data".toList, "do".toList] = some t ∧
      (t.startsWith "d".toList).map Prod.fst = some b ∧
      (t.findWordsWithPrefix "d".toList).map Prod.fst = some ws ∧ (b = true ↔ ws ≠ []) :=
  ⟨by decide,
    (startsWith_iff_findWords_nonempty ["data".toList, "do".toList] (by decide) "d".toList).1⟩

theorem reach_of_stored (t : TrieNode) (q s : List Char) (h : stored t (q ++ s) = true) :
    reach t q = true := by
  obtain ⟨m, hm, _⟩ := (stored_iff_walk _ _).1 h
  rw [walk_append] at hm
  unfold reach
  cases hq : walk t q with
  | none => simp [hq] at hm
  | some n => rfl

/-- C20: on a well-formed Trie, `W` occurs in `findWordsWithPrefix(P)` exactly
when `P` is a prefix of `W` and `search(W)` answers true; so
`findWordsWithPrefix("")` lists exactly the strings that `search` accepts, and
when `search(W)` answers true, `startsWith(Q)` answers true for every prefix
`Q` of `W`. -/
theorem findWords_iff_search (t : Trie) (P W : List Char)
    (hwf : wellFormed t.root = true) :
    (∃ ws, (t.findWordsWithPrefix P).map Prod.fst = some ws ∧
      (W ∈ ws ↔ P <+: W ∧ (t.search W).map Prod.fst = some true)) ∧
    (∃ ws0, (t.findWordsWithPrefix []).map Prod.fst = some ws0 ∧
      (W ∈ ws0 ↔ (t.search W).map Prod.fst = some true)) ∧
    ((t.search W).map Prod.fst = some true →
      ∀ Q, Q <+: W → (t.startsWith Q).map Prod.fst = some true) := by
  refine ⟨⟨collected t.root P, ?_, ?_⟩, ⟨collected t.root [], ?_, ?_⟩, ?_⟩
  · simp [Trie.findWordsWithPrefix_eq]
  · rw [mem_collected _ _ _ hwf]
    simp [Trie.search_eq]
  · simp [Trie.findWordsWithPrefix_eq]
  · rw [mem_collected _ _ _ hwf]
    simp [Trie.search_eq]
  · intro hs Q hQ
    simp only [Trie.search_eq, Option.map_some', Option.some.injEq] at hs
    obtain ⟨s, rfl⟩ := hQ
    simp only [Trie.startsWith_eq, Option.map_some', Option.some.injEq]
    exact reach_of_stored _ _ _ hs

/-- Witness of C20: the Trie holding "data" and "do", the prefix "d" and the
word "do". -/
theorem findWords_iff_search_witness :
    wellFormed dataDo.root = true ∧
    ∃ ws, (dataDo.findWordsWithPrefix "d".toList).map Prod.fst = some ws ∧
      ("do".toList ∈ ws ↔
        "d".toList <+: "do".toList ∧ (dataDo.search "do".toList).map Prod.fst = some true) :=
  ⟨by decide, (findWords_iff_search dataDo "d".toList "do".toList (by decide)).1⟩

end Lab5
